import Mathlib

/-!
Verification of the multi-array memory-layout descriptor (`layout.h`,
namespace `absl::container_internal`): a shallow embedding of
`LayoutImpl`, its offset/size/alignment computations, and the helper
functions of namespace `adl_barrier`, together with theorems settling
the specification claims.

Machine integers (`size_t`) are modelled as `Nat` with explicit
truncation modulo `2 ^ 64` at every point where the C++ code performs
size_t arithmetic that can wrap.
-/

namespace Layout

/-- Number of values of the 64-bit `size_t` type: arithmetic wraps modulo this. -/
def NSIZE : Nat := 2 ^ 64

/-- Truncation of a mathematical integer to `size_t`. -/
def trunc (n : Nat) : Nat := n % NSIZE

/-- One entry of the element-type list: `sizeof(T)`, `alignof(T)`, and the
optional explicit override carried by `Aligned<T, N>` (`none` for a plain `T`). -/
structure ElementType where
  size : Nat
  natAlign : Nat
  alignOverride : Option Nat

/-- Default element used only to totalize list indexing (never reached on
indices within bounds). -/
def defaultElem : ElementType := ⟨1, 1, none⟩

/-- `SizeOf<T>::value` / `SizeOf<Aligned<T,N>>::value`: always `sizeof(T)`. -/
def SizeOf (e : ElementType) : Nat := e.size

/-- `AlignOf<T>::value = alignof(T)`; `AlignOf<Aligned<T,N>>::value = N`. -/
def AlignOf (e : ElementType) : Nat :=
  match e.alignOverride with
  | some n => n
  | none => e.natAlign

/-- The `static_assert(N % alignof(T) == 0, ...)` inside `AlignOf<Aligned<T,N>>`
(trivially satisfied for a plain element type). -/
def AlignOfCheck (e : ElementType) : Bool :=
  match e.alignOverride with
  | some n => n % e.natAlign == 0
  | none => true

/-- `adl_barrier::IsPow2(n) = !(n & (n - 1))`.  `n - 1` at `n = 0` wraps to
`SIZE_MAX` in C; `0 &&& x = 0` either way, so the truncated subtraction of
`Nat` computes the same value. -/
def IsPow2 (n : Nat) : Bool := (n &&& (n - 1)) == 0

/-- `adl_barrier::Align(n, m) = (n + m - 1) & ~(m - 1)` in `size_t`
arithmetic: `n + m - 1` is reduced modulo `2 ^ 64` and `~x` is the
complement within 64 bits, i.e. `(2 ^ 64 - 1) - x`. -/
def Align (n m : Nat) : Nat :=
  ((n + m + (NSIZE - 1)) % NSIZE) &&& ((NSIZE - 1) - ((m + (NSIZE - 1)) % NSIZE))

/-- `adl_barrier::Min(a, b) = b < a ? b : a`. -/
def Min (a b : Nat) : Nat := if b < a then b else a

/-- `adl_barrier::Max(a) = a; Max(a, b, rest...) = Max(b < a ? a : b, rest...)`,
with the variadic tail represented as a list. -/
def MaxV : Nat → List Nat → Nat
  | a, [] => a
  | a, b :: rest => MaxV (if b < a then a else b) rest

/-- `IsLegalElementType<T>`: the reference/volatile conditions are about the
C++ type system and always hold for the data kinds modelled here; the
arithmetic condition is `IsPow2(AlignOf<T>::value)`. -/
def IsLegalElementType (e : ElementType) : Bool := IsPow2 (AlignOf e)

/-- The state of `LayoutImpl<std::tuple<Elements...>, SizeSeq, OffsetSeq>`
together with its one data member `size_`:
`elements` is `Elements...`, `size_` the constructor arguments
(`NumSizes = size_.length`), and `numOffsets` the length of `OffsetSeq`. -/
structure LayoutImpl where
  elements : List ElementType
  size_ : List Nat
  numOffsets : Nat

/-- `NumTypes = sizeof...(Elements)`. -/
def NumTypes (L : LayoutImpl) : Nat := L.elements.length

/-- `NumSizes = sizeof...(SizeSeq)`. -/
def NumSizes (L : LayoutImpl) : Nat := L.size_.length

/-- `NumOffsets = sizeof...(OffsetSeq)`. -/
def NumOffsets (L : LayoutImpl) : Nat := L.numOffsets

/-- The `i`-th entry of the element-type list. -/
def elem (L : LayoutImpl) (i : Nat) : ElementType := L.elements.getD i defaultElem

/-- `size_[i]`: the `i`-th constructor argument (the count of the `i`-th array). -/
def count (L : LayoutImpl) (i : Nat) : Nat := L.size_.getD i 0

/-- `ElementAlignment<i>::value = AlignOf<tuple_element<i, ...>>::value`. -/
def ElementAlignment (L : LayoutImpl) (i : Nat) : Nat := AlignOf (elem L i)

/-- `LayoutImpl::Offset<N>()`:
`Offset<0> = 0` and
`Offset<N> = Align(Offset<N-1> + SizeOf<ElementType<N-1>> * size_[N-1], ElementAlignment<N>)`,
with every size_t operation truncated modulo `2 ^ 64`. -/
def Offset (L : LayoutImpl) : Nat → Nat
  | 0 => 0
  | n + 1 =>
      Align (trunc (Offset L n + trunc (SizeOf (elem L n) * count L n)))
        (ElementAlignment L (n + 1))

/-- The compile-time acceptance condition of `Offset<N>()`: the `N == 0`
overload always compiles; the `N != 0` overload carries
`static_assert(N < NumOffsets, "Index out of bounds")`. -/
def OffsetAllowed (L : LayoutImpl) (i : Nat) : Prop :=
  i = 0 ∨ (i ≠ 0 ∧ i < NumOffsets L)

instance (L : LayoutImpl) (i : Nat) : Decidable (OffsetAllowed L i) := by
  unfold OffsetAllowed; infer_instance

/-- `LayoutImpl::Size<N>() = size_[N]` (behind `static_assert(N < NumSizes)`). -/
def Size (L : LayoutImpl) (i : Nat) : Nat := count L i

/-- `LayoutImpl::Sizes()`: `{Size<SizeSeq>()...}` for `SizeSeq = 0, ..., NumSizes-1`. -/
def Sizes (L : LayoutImpl) : List Nat := (List.range (NumSizes L)).map (Size L)

/-- `LayoutImpl::Alignment() = adl_barrier::Max(AlignOf<Elements>::value...)`. -/
def Alignment (L : LayoutImpl) : Nat :=
  match L.elements.map AlignOf with
  | [] => 0
  | a :: rest => MaxV a rest

/-- The compile-time acceptance condition of `AllocSize()`:
`static_assert(NumTypes == NumSizes, "You must specify sizes of all fields")`. -/
def AllocSizeAllowed (L : LayoutImpl) : Prop := NumTypes L = NumSizes L

/-- `LayoutImpl::AllocSize() = Offset<NumTypes-1>() +
SizeOf<ElementType<NumTypes-1>> * size_[NumTypes-1]` in size_t arithmetic. -/
def AllocSize (L : LayoutImpl) : Nat :=
  trunc (Offset L (NumTypes L - 1) +
    trunc (SizeOf (elem L (NumTypes L - 1)) * count L (NumTypes L - 1)))

/-- `LayoutType<NumSizes, Ts...> = LayoutImpl<tuple<Ts...>,
make_index_sequence<NumSizes>, make_index_sequence<Min(sizeof...(Ts), NumSizes+1)>>`.
`Layout::Partial(sizes...)` and the `Layout` constructor both build exactly
this instance, with `counts` the argument list. -/
def LayoutType (Ts : List ElementType) (counts : List Nat) : LayoutImpl :=
  ⟨Ts, counts, Min Ts.length (counts.length + 1)⟩

/-- The mathematical rounding function named by the specification:
`Align(x, a) = ceil(x / a) * a`, written for natural numbers as
`((x + a - 1) / a) * a`. -/
def AlignCeil (x a : Nat) : Nat := ((x + a - 1) / a) * a

/- Concrete element types used by the test programs. -/

/-- `char`. -/
def charT : ElementType := ⟨1, 1, none⟩

/-- `int`. -/
def intT : ElementType := ⟨4, 4, none⟩

/-- `Aligned<int, 32>`. -/
def int32T : ElementType := ⟨4, 4, some 32⟩

/-- `double`. -/
def doubleT : ElementType := ⟨8, 8, none⟩

/-- The descriptor of `test_alignment.cpp`'s custom-alignment block:
`Layout<char, Aligned<int, 32>, double> layout(3, 2, 4)`. -/
def L8 : LayoutImpl := LayoutType [charT, int32T, doubleT] [3, 2, 4]

/-- The descriptor of `test_alignment.cpp`'s automatic-alignment block:
`Layout<char, int, double> layout(3, 2, 4)`. -/
def LF : LayoutImpl := LayoutType [charT, intT, doubleT] [3, 2, 4]

/-- A partial descriptor: `Layout<char, int, double>::Partial(3, 2)`. -/
def LW : LayoutImpl := LayoutType [charT, intT, doubleT] [3, 2]

/-! ### Arithmetic facts about the bit-twiddling helpers -/

/-- Masking with `2 ^ w - 2 ^ k` (the 64-bit complement of `2 ^ k - 1` when
`w = 64`) clears the low `k` bits of any `x < 2 ^ w`. -/
theorem land_mask (x k w : Nat) (hx : x < 2 ^ w) (hk : k ≤ w) :
    x &&& (2 ^ w - 2 ^ k) = 2 ^ k * (x / 2 ^ k) := by
  have hmask : 2 ^ w - 2 ^ k = (2 ^ (w - k) - 1) <<< k := by
    rw [Nat.shiftLeft_eq, Nat.sub_mul, ← Nat.pow_add, Nat.one_mul]
    congr 2
    omega
  have hrhs : 2 ^ k * (x / 2 ^ k) = (x >>> k) <<< k := by
    rw [Nat.shiftRight_eq_div_pow, Nat.shiftLeft_eq, Nat.mul_comm]
  rw [hmask, hrhs]
  apply Nat.eq_of_testBit_eq
  intro i
  rw [Nat.testBit_land, Nat.testBit_shiftLeft, Nat.testBit_shiftLeft, Nat.testBit_shiftRight,
    Nat.testBit_two_pow_sub_one]
  by_cases hki : k ≤ i
  · have hik : k + (i - k) = i := by omega
    rw [hik]
    by_cases hiw : i < w
    · have h1 : i - k < w - k := by omega
      simp [ge_iff_le, hki, h1, Bool.and_comm]
    · have hxi : x.testBit i = false :=
        Nat.testBit_lt_two_pow (Nat.lt_of_lt_of_le hx (Nat.pow_le_pow_right (by omega) (by omega)))
      simp [hxi]
  · simp [ge_iff_le, hki]

/-- For a power-of-two `m = 2 ^ k` below `2 ^ 64` and no size_t overflow in
`n + m - 1`, the implementation's `Align` computes `m * ceil(n / m)`
(with `ceil(n / m) = (n + m - 1) / m`). -/
theorem align_pow2_eq (n k : Nat) (hk : k < 64) (hov : n + 2 ^ k - 1 < NSIZE) :
    Align n (2 ^ k) = 2 ^ k * ((n + 2 ^ k - 1) / 2 ^ k) := by
  have hm1 : 0 < 2 ^ k := Nat.two_pow_pos k
  have hmlt : 2 ^ k < NSIZE := by
    have : (2 : Nat) ^ k < 2 ^ 64 := (Nat.pow_lt_pow_iff_right (by omega)).mpr hk
    simpa [NSIZE] using this
  unfold Align
  have e1 : (n + 2 ^ k + (NSIZE - 1)) % NSIZE = n + 2 ^ k - 1 := by
    have h : n + 2 ^ k + (NSIZE - 1) = (n + 2 ^ k - 1) + NSIZE := by omega
    rw [h, Nat.add_mod_right, Nat.mod_eq_of_lt hov]
  have e2 : (2 ^ k + (NSIZE - 1)) % NSIZE = 2 ^ k - 1 := by
    have h : 2 ^ k + (NSIZE - 1) = (2 ^ k - 1) + NSIZE := by omega
    rw [h, Nat.add_mod_right, Nat.mod_eq_of_lt (by omega)]
  rw [e1, e2]
  have e3 : NSIZE - 1 - (2 ^ k - 1) = 2 ^ 64 - 2 ^ k := by
    have h64 : NSIZE = 2 ^ 64 := rfl
    omega
  rw [e3]
  have hov2 : n + 2 ^ k - 1 < 2 ^ 64 := hov
  exact land_mask _ k 64 hov2 (by omega)

/-- `m * ceil(x / m)` is at least `x`. -/
theorem ceil_mul_ge (x m : Nat) (hm : 0 < m) : x ≤ m * ((x + m - 1) / m) := by
  have h := Nat.div_add_mod (x + m - 1) m
  have hr : (x + m - 1) % m < m := Nat.mod_lt _ hm
  omega

/-- `m * ceil(x / m)` is the smallest multiple of `m` that is `≥ x`. -/
theorem ceil_mul_le (x m y : Nat) (hm : 0 < m) (hxy : x ≤ y) (hdvd : m ∣ y) :
    m * ((x + m - 1) / m) ≤ y := by
  obtain ⟨t, rfl⟩ := hdvd
  have h1 : (x + m - 1) / m ≤ t := by
    have h2 : x + m - 1 ≤ m * t + (m - 1) := by omega
    calc (x + m - 1) / m ≤ (m * t + (m - 1)) / m := Nat.div_le_div_right h2
      _ = t + (m - 1) / m := Nat.mul_add_div hm t (m - 1)
      _ = t := by rw [Nat.div_eq_of_lt (by omega), Nat.add_zero]
  exact Nat.mul_le_mul_left m h1

/-- `m * ceil(x / m)` never exceeds `x + m - 1`. -/
theorem ceil_mul_le_bound (x m : Nat) : m * ((x + m - 1) / m) ≤ x + m - 1 := by
  rw [Nat.mul_comm]
  exact Nat.div_mul_le_self _ _

/-- A nonzero value of which the bit-trick `n & (n - 1)` is zero is a power
of two: soundness of `IsPow2` on positive inputs. -/
theorem pow2_of_land_pred : ∀ n, n ≠ 0 → n &&& (n - 1) = 0 → ∃ k, n = 2 ^ k := by
  intro n
  induction n using Nat.strong_induction_on with
  | _ n ih =>
    intro hn h
    rcases Nat.lt_or_ge n 2 with h2 | h2
    · have h1 : n = 1 := by omega
      exact ⟨0, by omega⟩
    · rcases Nat.even_or_odd n with he | ho
      · obtain ⟨m, hm⟩ := he
        have hm0 : m ≠ 0 := by omega
        have hml : m < n := by omega
        have hland : m &&& (m - 1) = 0 := by
          apply Nat.eq_of_testBit_eq
          intro i
          rw [Nat.testBit_land, Nat.zero_testBit]
          have hb := congrArg (fun t => t.testBit (i + 1)) h
          simp only [Nat.zero_testBit] at hb
          rw [Nat.testBit_land, Nat.testBit_add_one, Nat.testBit_add_one] at hb
          have e1 : n / 2 = m := by omega
          have e2 : (n - 1) / 2 = m - 1 := by omega
          rw [e1, e2] at hb
          exact hb
        obtain ⟨k, hk⟩ := ih m hml hm0 hland
        refine ⟨k + 1, ?_⟩
        rw [Nat.pow_succ]
        omega
      · obtain ⟨m, hm⟩ := ho
        have hm0 : m ≠ 0 := by omega
        have hex : ∃ j, m.testBit j = true := by
          by_contra hall
          push_neg at hall
          apply hm0
          apply Nat.eq_of_testBit_eq
          intro i
          rw [Nat.zero_testBit]
          exact Bool.not_eq_true _ ▸ (Bool.eq_false_iff.mpr (hall i))
        obtain ⟨j, hj⟩ := hex
        have hb := congrArg (fun t => t.testBit (j + 1)) h
        simp only [Nat.zero_testBit] at hb
        rw [Nat.testBit_land, Nat.testBit_add_one, Nat.testBit_add_one] at hb
        have e1 : n / 2 = m := by omega
        have e2 : (n - 1) / 2 = m := by omega
        rw [e1, e2, hj] at hb
        simp at hb

/-! ### Structure of the offset computation -/

/-- Unfolding of `Offset<N>` for `N = n + 1` once the two inner size_t
operations are known not to wrap. -/
theorem Offset_succ_eq (L : LayoutImpl) (n : Nat)
    (hmul : SizeOf (elem L n) * count L n < NSIZE)
    (hov : Offset L n + SizeOf (elem L n) * count L n < NSIZE) :
    Offset L (n + 1) =
      Align (Offset L n + SizeOf (elem L n) * count L n) (ElementAlignment L (n + 1)) := by
  show Align (trunc (Offset L n + trunc (SizeOf (elem L n) * count L n)))
      (ElementAlignment L (n + 1)) = _
  rw [trunc, trunc, Nat.mod_eq_of_lt hmul, Nat.mod_eq_of_lt hov]

/-- `Offset<i>` reads only the element list and the counts below `i`: two
instances with the same element types whose counts agree below `i` compute
the same offset for `i`. -/
theorem Offset_congr (L1 L2 : LayoutImpl) (he : L1.elements = L2.elements) :
    ∀ i, (∀ j, j < i → count L1 j = count L2 j) → Offset L1 i = Offset L2 i := by
  intro i
  induction i with
  | zero => intro _; rfl
  | succ n ih =>
    intro h
    show Align (trunc (Offset L1 n + trunc (SizeOf (elem L1 n) * count L1 n)))
        (ElementAlignment L1 (n + 1)) =
      Align (trunc (Offset L2 n + trunc (SizeOf (elem L2 n) * count L2 n)))
        (ElementAlignment L2 (n + 1))
    have hc : count L1 n = count L2 n := h n (by omega)
    have hoff : Offset L1 n = Offset L2 n := ih fun j hj => h j (by omega)
    have hel : elem L1 n = elem L2 n := by unfold elem; rw [he]
    have hel2 : elem L1 (n + 1) = elem L2 (n + 1) := by unfold elem; rw [he]
    unfold ElementAlignment
    rw [hc, hoff, hel, hel2]

/-- All alignments used by the first `M` arrays are powers of two
representable in `size_t` (true of every C++ type and every legal override). -/
def Pow2Aligns (L : LayoutImpl) (M : Nat) : Prop :=
  ∀ i, i < M → ∃ k, k < 64 ∧ ElementAlignment L i = 2 ^ k

/-- No step of the offset computation for the first `M` arrays overflows
`size_t`. -/
def StepBounds (L : LayoutImpl) (M : Nat) : Prop :=
  ∀ i, i + 1 < M →
    SizeOf (elem L i) * count L i < NSIZE ∧
    Offset L i + SizeOf (elem L i) * count L i + ElementAlignment L (i + 1) - 1 < NSIZE

/-! ### Claim theorems -/

/-- C1: for a valid layout descriptor, `Offset(0) = 0` and, for `0 < i < M`,
`Offset(i)` is obtained from the previous array's end
`Offset(i-1) + size(i-1) * count(i-1)` by rounding up to the array's
alignment (natural or overridden): `Align(x, a) = ceil(x/a) * a`. -/
theorem offset_recurrence (L : LayoutImpl) (i k : Nat) (hi : 0 < i)
    (him : i < NumOffsets L) (hk : k < 64) (ha : ElementAlignment L i = 2 ^ k)
    (hmul : SizeOf (elem L (i - 1)) * count L (i - 1) < NSIZE)
    (hov : Offset L (i - 1) + SizeOf (elem L (i - 1)) * count L (i - 1) + 2 ^ k - 1 < NSIZE) :
    Offset L i =
      AlignCeil (Offset L (i - 1) + SizeOf (elem L (i - 1)) * count L (i - 1))
        (ElementAlignment L i)
    ∧ Offset L 0 = 0 := by
  obtain ⟨j, rfl⟩ : ∃ j, i = j + 1 := ⟨i - 1, by omega⟩
  simp only [Nat.add_sub_cancel] at ha hmul hov ⊢
  refine ⟨?_, rfl⟩
  have h2 : 0 < 2 ^ k := Nat.two_pow_pos k
  rw [Offset_succ_eq L j hmul (by omega), ha, align_pow2_eq _ k hk hov]
  unfold AlignCeil
  rw [Nat.mul_comm]

/-- Witness for C1 on the custom-alignment descriptor: for
`Layout<char, Aligned<int,32>, double>(3, 2, 4)`, array 1 starts at
`ceil((0 + 1*3) / 32) * 32 = 32`. -/
theorem offset_recurrence_witness :
    Offset L8 1 =
      AlignCeil (Offset L8 0 + SizeOf (elem L8 0) * count L8 0) (ElementAlignment L8 1)
    ∧ Offset L8 0 = 0 :=
  offset_recurrence L8 1 5 (by omega) (by decide) (by omega) (by decide) (by decide) (by decide)

/-- C2: a descriptor built by `LayoutType` (i.e. by `Layout::Partial` with
`K` counts or the `Layout` constructor) has `NumOffsets = min(N, K+1)`, and
`Offset<i>()` compiles exactly for `i < min(N, K+1)`: the `i = 0` overload is
unconditional and the `i ≠ 0` overload static_asserts `i < NumOffsets`. -/
theorem offset_domain (Ts : List ElementType) (counts : List Nat)
    (hN : 0 < Ts.length) (hK : counts.length ≤ Ts.length) (i : Nat) :
    NumOffsets (LayoutType Ts counts) = Min Ts.length (counts.length + 1)
    ∧ (OffsetAllowed (LayoutType Ts counts) i ↔ i < Min Ts.length (counts.length + 1)) := by
  refine ⟨rfl, ?_⟩
  simp only [OffsetAllowed, NumOffsets, LayoutType, Min]
  split
  · omega
  · omega

/-- Witness for C2: `Layout<char, int, double>::Partial(3, 2)` can compute
offsets 0, 1 and 2 but rejects offset 3. -/
theorem offset_domain_witness :
    (NumOffsets (LayoutType [charT, intT, doubleT] [3, 2]) =
      Min (List.length [charT, intT, doubleT]) (List.length [3, 2] + 1)
    ∧ (OffsetAllowed (LayoutType [charT, intT, doubleT] [3, 2]) 3 ↔
        3 < Min (List.length [charT, intT, doubleT]) (List.length [3, 2] + 1))) :=
  offset_domain [charT, intT, doubleT] [3, 2] (by decide) (by decide) 3

/-- C3: `AllocSize()` compiles exactly when all `N` counts are known
(`NumTypes == NumSizes`), and then equals the end of the last array
`Offset(N-1) + size(N-1) * count(N-1)` exactly — no trailing padding. -/
theorem alloc_size_exact (L : LayoutImpl) (hKN : NumSizes L = NumTypes L)
    (hN : 0 < NumTypes L)
    (hmul : SizeOf (elem L (NumTypes L - 1)) * count L (NumTypes L - 1) < NSIZE)
    (hov : Offset L (NumTypes L - 1) +
      SizeOf (elem L (NumTypes L - 1)) * count L (NumTypes L - 1) < NSIZE) :
    (AllocSizeAllowed L ↔ NumSizes L = NumTypes L)
    ∧ AllocSize L =
      Offset L (NumTypes L - 1) + SizeOf (elem L (NumTypes L - 1)) * count L (NumTypes L - 1) := by
  refine ⟨⟨fun h => h.symm, fun h => h.symm⟩, ?_⟩
  unfold AllocSize trunc
  rw [Nat.mod_eq_of_lt hmul, Nat.mod_eq_of_lt hov]

/-- Witness for C3 on `Layout<char, int, double>(3, 2, 4)`:
`AllocSize() = Offset(2) + 8 * 4 = 48`, the end of the double array. -/
theorem alloc_size_exact_witness :
    (AllocSizeAllowed LF ↔ NumSizes LF = NumTypes LF)
    ∧ AllocSize LF =
      Offset LF (NumTypes LF - 1) + SizeOf (elem LF (NumTypes LF - 1)) * count LF (NumTypes LF - 1) :=
  alloc_size_exact LF (by decide) (by decide) (by decide) (by decide)

/-- C5: refining a partial descriptor never changes already-resolved
offsets: if `K1 < K2 ≤ N` and the `K2`-count descriptor agrees with the
`K1`-count descriptor on the first `K1` counts, every offset computable from
the `K1` descriptor (`i < min(N, K1+1)`) is computed identically by the `K2`
descriptor (`K2 = N` being the full descriptor). -/
theorem refine_preserves_offsets (Ts : List ElementType) (cs1 cs2 : List Nat)
    (hK : cs1.length < cs2.length) (hN : cs2.length ≤ Ts.length)
    (hagree : ∀ j, j < cs1.length → cs1.getD j 0 = cs2.getD j 0)
    (i : Nat) (hi : i < Min Ts.length (cs1.length + 1)) :
    Offset (LayoutType Ts cs1) i = Offset (LayoutType Ts cs2) i := by
  apply Offset_congr (LayoutType Ts cs1) (LayoutType Ts cs2) rfl
  intro j hj
  have hiK : i ≤ cs1.length := by
    unfold Min at hi
    split at hi <;> omega
  show cs1.getD j 0 = cs2.getD j 0
  exact hagree j (by omega)

/-- Witness for C5: `Layout<char, int, double>::Partial(3)` and
`Layout<char, int, double>::Partial(3, 2)` agree on `Offset<1>()`. -/
theorem refine_preserves_offsets_witness :
    Offset (LayoutType [charT, intT, doubleT] [3]) 1 =
      Offset (LayoutType [charT, intT, doubleT] [3, 2]) 1 :=
  refine_preserves_offsets [charT, intT, doubleT] [3] [3, 2] (by decide) (by decide)
    (by decide) 1 (by decide)

/-- C4: with power-of-two alignments and no size_t overflow, every computable
offset is a multiple of its array's alignment, `Offset(i)` is at least the
end `Offset(i-1) + size(i-1)*count(i-1)` of the previous array, and the byte
ranges of distinct arrays never overlap (the earlier array ends at or before
the later one starts). -/
theorem offsets_aligned_disjoint (L : LayoutImpl)
    (hpow : Pow2Aligns L (NumOffsets L)) (hstep : StepBounds L (NumOffsets L)) :
    (∀ i, i < NumOffsets L → Offset L i % ElementAlignment L i = 0)
    ∧ (∀ i, 0 < i → i < NumOffsets L →
        Offset L (i - 1) + SizeOf (elem L (i - 1)) * count L (i - 1) ≤ Offset L i)
    ∧ (∀ i j, i < j → j < NumOffsets L →
        Offset L i + SizeOf (elem L i) * count L i ≤ Offset L j) := by
  have step : ∀ i, i + 1 < NumOffsets L →
      Offset L i + SizeOf (elem L i) * count L i ≤ Offset L (i + 1) ∧
      Offset L (i + 1) % ElementAlignment L (i + 1) = 0 := by
    intro i hi
    obtain ⟨k, hk, ha⟩ := hpow (i + 1) hi
    obtain ⟨hmul, hov⟩ := hstep i hi
    rw [ha] at hov
    have h2 : 0 < 2 ^ k := Nat.two_pow_pos k
    have heq : Offset L (i + 1) =
        Align (Offset L i + SizeOf (elem L i) * count L i) (ElementAlignment L (i + 1)) :=
      Offset_succ_eq L i hmul (by omega)
    rw [heq, ha, align_pow2_eq _ k hk hov]
    exact ⟨ceil_mul_ge _ _ h2, Nat.mul_mod_right _ _⟩
  have chain : ∀ j, j < NumOffsets L → ∀ i, i < j →
      Offset L i + SizeOf (elem L i) * count L i ≤ Offset L j := by
    intro j
    induction j with
    | zero => intro _ i hi; omega
    | succ j ihj =>
      intro hj i hi
      rcases Nat.lt_or_ge i j with hij | hij
      · have h1 := ihj (by omega) i hij
        have h2 := (step j (by omega)).1
        omega
      · have hij2 : i = j := by omega
        subst hij2
        exact (step i (by omega)).1
  refine ⟨?_, ?_, ?_⟩
  · intro i hi
    match i with
    | 0 => exact Nat.zero_mod _
    | j + 1 => exact (step j hi).2
  · intro i hi0 hi
    obtain ⟨j, rfl⟩ : ∃ j, i = j + 1 := ⟨i - 1, by omega⟩
    simpa using (step j hi).1
  · intro i j hij hj
    exact chain j hj i hij

/-- Witness for C4 on `Layout<char, Aligned<int,32>, double>(3, 2, 4)`. -/
theorem offsets_aligned_disjoint_witness :
    (∀ i, i < NumOffsets L8 → Offset L8 i % ElementAlignment L8 i = 0)
    ∧ (∀ i, 0 < i → i < NumOffsets L8 →
        Offset L8 (i - 1) + SizeOf (elem L8 (i - 1)) * count L8 (i - 1) ≤ Offset L8 i)
    ∧ (∀ i j, i < j → j < NumOffsets L8 →
        Offset L8 i + SizeOf (elem L8 i) * count L8 i ≤ Offset L8 j) := by
  apply offsets_aligned_disjoint L8
  · intro i hi
    have h3 : i < 3 := hi
    interval_cases i
    · exact ⟨0, by omega, rfl⟩
    · exact ⟨5, by omega, rfl⟩
    · exact ⟨3, by omega, rfl⟩
  · intro i hi
    have h3 : i + 1 < 3 := hi
    have h4 : i < 2 := by omega
    interval_cases i
    · exact ⟨by decide, by decide⟩
    · exact ⟨by decide, by decide⟩

/-- The variadic `adl_barrier::Max` really computes the maximum of its
arguments: every argument is bounded by it, and it is one of them. -/
theorem MaxV_spec (l : List Nat) : ∀ a : Nat,
    (∀ x ∈ a :: l, x ≤ MaxV a l) ∧ MaxV a l ∈ a :: l := by
  induction l with
  | nil =>
    intro a
    refine ⟨?_, ?_⟩
    · intro x hx
      have hxa : x = a := by simpa using hx
      simp [MaxV, hxa]
    · simp [MaxV]
  | cons b rest ih =>
    intro a
    obtain ⟨h1, h2⟩ := ih (if b < a then a else b)
    have hs : MaxV a (b :: rest) = MaxV (if b < a then a else b) rest := rfl
    have hm : (if b < a then a else b) ∈ a :: b :: rest := by
      split
      · exact List.mem_cons_self _ _
      · exact List.mem_cons_of_mem _ (List.mem_cons_self _ _)
    refine ⟨?_, ?_⟩
    · intro x hx
      rw [hs]
      have htop := h1 (if b < a then a else b) (List.mem_cons_self _ _)
      rcases List.mem_cons.mp hx with hxa | hx2
      · subst hxa
        have hle : x ≤ if b < x then x else b := by split <;> omega
        exact le_trans hle htop
      · rcases List.mem_cons.mp hx2 with hxb | hx3
        · subst hxb
          have hle : x ≤ if x < a then a else x := by split <;> omega
          exact le_trans hle htop
        · exact h1 x (List.mem_cons_of_mem _ hx3)
    · rw [hs]
      rcases List.mem_cons.mp h2 with hh | hh
      · rw [hh]
        exact hm
      · exact List.mem_cons_of_mem _ (List.mem_cons_of_mem _ hh)

/-- C6: `Alignment()` is the maximum of the alignments (natural or
overridden) of the `N` element types — every element's alignment is bounded
by it and it is attained by one of them — it does not depend on how many
counts were supplied, and a buffer address divisible by `Alignment()` is
divisible by the first array's alignment, so the first array (at offset 0)
is correctly aligned. -/
theorem alignment_is_max (Ts : List ElementType) (cs1 cs2 : List Nat) (hne : Ts ≠ [])
    (hpow : ∀ e ∈ Ts, ∃ k, k < 64 ∧ AlignOf e = 2 ^ k) :
    (∀ e ∈ Ts, AlignOf e ≤ Alignment (LayoutType Ts cs1))
    ∧ Alignment (LayoutType Ts cs1) ∈ Ts.map AlignOf
    ∧ Alignment (LayoutType Ts cs1) = Alignment (LayoutType Ts cs2)
    ∧ (∀ B, Alignment (LayoutType Ts cs1) ∣ B →
        ElementAlignment (LayoutType Ts cs1) 0 ∣ B) := by
  obtain ⟨t, ts, rfl⟩ : ∃ t ts, Ts = t :: ts := by
    cases Ts with
    | nil => exact absurd rfl hne
    | cons t ts => exact ⟨t, ts, rfl⟩
  have hA : Alignment (LayoutType (t :: ts) cs1) = MaxV (AlignOf t) (ts.map AlignOf) := rfl
  obtain ⟨h1, h2⟩ := MaxV_spec (ts.map AlignOf) (AlignOf t)
  have hmap : AlignOf t :: ts.map AlignOf = (t :: ts).map AlignOf := rfl
  have hub : ∀ e ∈ t :: ts, AlignOf e ≤ Alignment (LayoutType (t :: ts) cs1) := by
    intro e he
    rw [hA]
    exact h1 (AlignOf e) (hmap ▸ List.mem_map_of_mem AlignOf he)
  have hmem : Alignment (LayoutType (t :: ts) cs1) ∈ (t :: ts).map AlignOf := by
    rw [hA, ← hmap]
    exact h2
  refine ⟨hub, hmem, rfl, ?_⟩
  intro B hB
  obtain ⟨e, he, hae⟩ := List.mem_map.mp hmem
  obtain ⟨l, hl, hael⟩ := hpow e he
  obtain ⟨j, hj, haj⟩ := hpow t (List.mem_cons_self _ _)
  have ht0 : ElementAlignment (LayoutType (t :: ts) cs1) 0 = AlignOf t := rfl
  have hle : AlignOf t ≤ Alignment (LayoutType (t :: ts) cs1) :=
    hub t (List.mem_cons_self _ _)
  rw [ht0, haj]
  rw [← hae, hael] at hB hle
  rw [haj] at hle
  have hjl : j ≤ l := (Nat.pow_le_pow_iff_right (by omega)).mp hle
  exact dvd_trans (pow_dvd_pow 2 hjl) hB

/-- Witness for C6 on `Layout<char, Aligned<int,32>, double>`. -/
theorem alignment_is_max_witness :
    (∀ e ∈ [charT, int32T, doubleT], AlignOf e ≤ Alignment (LayoutType [charT, int32T, doubleT] [3]))
    ∧ Alignment (LayoutType [charT, int32T, doubleT] [3]) ∈ [charT, int32T, doubleT].map AlignOf
    ∧ Alignment (LayoutType [charT, int32T, doubleT] [3]) =
        Alignment (LayoutType [charT, int32T, doubleT] [3, 2, 4])
    ∧ (∀ B, Alignment (LayoutType [charT, int32T, doubleT] [3]) ∣ B →
        ElementAlignment (LayoutType [charT, int32T, doubleT] [3]) 0 ∣ B) := by
  apply alignment_is_max
  · exact List.cons_ne_nil _ _
  · intro e he
    rcases List.mem_cons.mp he with rfl | he2
    · exact ⟨0, by omega, rfl⟩
    · rcases List.mem_cons.mp he2 with rfl | he3
      · exact ⟨5, by omega, rfl⟩
      · rcases List.mem_cons.mp he3 with rfl | he4
        · exact ⟨3, by omega, rfl⟩
        · exact absurd he4 (List.not_mem_nil e)

/-- C7 counterexample: the override value `A = 0` is not a power of two and
is smaller than the natural alignment, yet `Aligned<char, 0>` passes both
compile-time checks — `0 % alignof(char) == 0` satisfies the `AlignOf`
static_assert and `IsPow2(0) = !(0 & SIZE_MAX) = true` satisfies
`IsLegalElementType` — so it is not rejected. -/
theorem override_zero_accepted :
    (∀ k : Nat, (0 : Nat) ≠ 2 ^ k)
    ∧ (0 : Nat) < ElementType.natAlign ⟨1, 1, some 0⟩
    ∧ AlignOfCheck ⟨1, 1, some 0⟩ = true
    ∧ IsLegalElementType ⟨1, 1, some 0⟩ = true := by
  refine ⟨fun k => ?_, by decide, by decide, by decide⟩
  have h := Nat.two_pow_pos k
  omega

/-- C7 amended: for every nonzero override value `A`, an `Aligned<T, A>`
whose `A` is not a power of two or is smaller than `alignof(T)` fails at
least one of the two compile-time checks; only the degenerate override
`A = 0` slips through them. -/
theorem override_validation_amended (s a A : Nat) (hA : 1 ≤ A)
    (hbad : (∀ k, A ≠ 2 ^ k) ∨ A < a) :
    ¬(AlignOfCheck ⟨s, a, some A⟩ = true ∧ IsLegalElementType ⟨s, a, some A⟩ = true) := by
  rintro ⟨h1, h2⟩
  have hdvd : a ∣ A := by
    have hb : (A % a == 0) = true := h1
    exact Nat.dvd_of_mod_eq_zero (by simpa using hb)
  have hpow : ∃ k, A = 2 ^ k := by
    apply pow2_of_land_pred A (by omega)
    have hb : (A &&& (A - 1) == 0) = true := h2
    simpa using hb
  rcases hbad with hb | hb
  · obtain ⟨k, hk⟩ := hpow
    exact hb k hk
  · have hle : a ≤ A := Nat.le_of_dvd (by omega) hdvd
    omega

/-- Witness for the amended C7: `Aligned<int, 2>` (override 2 below
`alignof(int) = 4`) is rejected. -/
theorem override_validation_amended_witness :
    ¬(AlignOfCheck ⟨4, 4, some 2⟩ = true ∧ IsLegalElementType ⟨4, 4, some 2⟩ = true) :=
  override_validation_amended 4 4 2 (by omega) (Or.inr (by omega))

/-- C8: the concrete custom-alignment scenario of `test_alignment.cpp`:
element types `[char, Aligned<int,32>, double]` with counts `(3, 2, 4)` give
`Alignment() == 32`, offsets `0, 32, 40`, and `AllocSize() == 72`. -/
theorem custom_alignment_scenario :
    Alignment L8 = 32 ∧ Offset L8 0 = 0 ∧ Offset L8 1 = 32 ∧ Offset L8 2 = 40
    ∧ AllocSize L8 = 72 := by
  refine ⟨by decide, by decide, by decide, by decide, by decide⟩

/-- C9: for any `n` and power of two `m = 2 ^ k` (`k < 64`, so `m` is a
size_t value) with `n + m - 1` not overflowing size_t, the bit-twiddling
`(n + m - 1) & ~(m - 1)` equals `ceil(n/m) * m`: it is a multiple of `m`,
at least `n`, and no multiple of `m` that is at least `n` is smaller. -/
theorem align_bit_trick (n k : Nat) (hk : k < 64) (hov : n + 2 ^ k - 1 < NSIZE) :
    Align n (2 ^ k) = AlignCeil n (2 ^ k)
    ∧ n ≤ Align n (2 ^ k)
    ∧ 2 ^ k ∣ Align n (2 ^ k)
    ∧ (∀ y, n ≤ y → 2 ^ k ∣ y → Align n (2 ^ k) ≤ y) := by
  have h2 : 0 < 2 ^ k := Nat.two_pow_pos k
  have he := align_pow2_eq n k hk hov
  refine ⟨?_, ?_, ?_, ?_⟩
  · rw [he]
    unfold AlignCeil
    rw [Nat.mul_comm]
  · rw [he]
    exact ceil_mul_ge n _ h2
  · rw [he]
    exact Dvd.intro _ rfl
  · intro y hy hdvd
    rw [he]
    exact ceil_mul_le n _ y h2 hy hdvd

/-- Witness for C9: `Align(3, 4) = 4`, the smallest multiple of 4 above 3. -/
theorem align_bit_trick_witness :
    Align 3 (2 ^ 2) = AlignCeil 3 (2 ^ 2)
    ∧ 3 ≤ Align 3 (2 ^ 2)
    ∧ 2 ^ 2 ∣ Align 3 (2 ^ 2)
    ∧ (∀ y, 3 ≤ y → 2 ^ 2 ∣ y → Align 3 (2 ^ 2) ≤ y) :=
  align_bit_trick 3 2 (by omega) (by decide)

/-- Mapping `getD` over the full index range of a list reproduces the list. -/
theorem range_map_getD (l : List Nat) :
    (List.range l.length).map (fun i => l.getD i 0) = l := by
  induction l with
  | nil => rfl
  | cons a t ih =>
    simp only [List.length_cons, List.range_succ_eq_map, List.map_cons, List.map_map,
      Function.comp_def, List.getD_cons_zero, List.getD_cons_succ]
    exact congrArg (List.cons a) ih

/-- C10: a descriptor stores its constructor arguments unchanged: `Size<i>()`
returns the `i`-th supplied count and `Sizes()` returns exactly the supplied
counts in argument order (the descriptor value is never mutated: every
operation in the embedding is a pure function of it). -/
theorem sizes_roundtrip (Ts : List ElementType) (counts : List Nat) (i : Nat)
    (hi : i < counts.length) :
    Size (LayoutType Ts counts) i = counts.getD i 0
    ∧ Sizes (LayoutType Ts counts) = counts := by
  refine ⟨rfl, ?_⟩
  show (List.range counts.length).map (Size (LayoutType Ts counts)) = counts
  have hf : Size (LayoutType Ts counts) = fun i => counts.getD i 0 := rfl
  rw [hf]
  exact range_map_getD counts

/-- Witness for C10 on `Layout<char, int, double>(3, 2, 4)`. -/
theorem sizes_roundtrip_witness :
    Size (LayoutType [charT, intT, doubleT] [3, 2, 4]) 0 = List.getD [3, 2, 4] 0 0
    ∧ Sizes (LayoutType [charT, intT, doubleT] [3, 2, 4]) = [3, 2, 4] :=
  sizes_roundtrip [charT, intT, doubleT] [3, 2, 4] 0 (by decide)

end Layout
